import Mathlib

/-!
Verification of the manifest-patching core of `cargo-update-dep`
(`src/main.rs`), shallowly embedded over `List Char`.

The embedding mirrors `update_manifest_path`, `get_manifest_files` and the
update loop of `main`:

* the two recognition regexes `^[\t\s]*{package}[\t\s]*=` and
  `package[\t\s]*=[\t\s]*"{package}"` (package names are cargo package
  identifiers, i.e. alphanumeric characters, `-` and `_`, all of which the
  regex engine treats literally);
* `str::replace` (leftmost, non-overlapping replacement of every occurrence);
* `BufRead::lines` (splits at `\n`, strips the `\n` and a `\r` directly
  before it, yields a final unterminated line, no line for empty input);
* the conditional rewrite `lines.join("\n")` plus a single `"\n"`;
* the `file://(.*)\)` capture of `get_manifest_files` plus
  `PathBuf::push("Cargo.toml")`;
* the per-manifest loop of `main` that accumulates the paths for which
  `update_manifest_path` returned `true`.
-/

set_option maxRecDepth 20000

namespace CargoUpdateDep

/-- Whitespace characters of the regex class `[\t\s]` used by both
recognition regexes in `update_manifest_path` (`\s` is `[ \t\n\x0B\x0C\r]`;
the extra `\t` is redundant). -/
def isWsChar (c : Char) : Bool :=
  c = ' ' || c = '\t' || c = '\n' || c = '\x0B' || c = '\x0C' || c = '\r'

/-- Semantics of a regex fragment `[\t\s]*` followed by a continuation:
`wsStarThen k l` holds iff some (possibly empty) run of whitespace characters
at the front of `l` can be skipped so that `k` accepts the rest.  The star may
stop early (backtracking), so every stopping point is tried. -/
def wsStarThen (k : List Char → Bool) : List Char → Bool
  | [] => k []
  | c :: rest => k (c :: rest) || (isWsChar c && wsStarThen k rest)

/-- Unanchored search: `searchThen k l` holds iff `k` accepts some suffix of
`l`; this is `Regex::is_match` for a pattern without a `^` anchor. -/
def searchThen (k : List Char → Bool) : List Char → Bool
  | [] => k []
  | c :: rest => k (c :: rest) || searchThen k rest

/-- Continuation recognising a literal `=`. -/
def eqHead : List Char → Bool
  | [] => false
  | c :: _ => c = '='

/-- Continuation recognising a literal `=` followed by `[\t\s]*` and `k`. -/
def eqThenWs (k : List Char → Bool) : List Char → Bool
  | [] => false
  | c :: r => c = '=' && wsStarThen k r

/-- First recognition regex of `update_manifest_path`:
`^[\t\s]*{package}[\t\s]*=`, anchored at the start of the line. -/
def matchesDirect (pkg line : List Char) : Bool :=
  wsStarThen (fun r => pkg.isPrefixOf r && wsStarThen eqHead (r.drop pkg.length)) line

/-- Matching of `package[\t\s]*=[\t\s]*"{package}"` at one start position. -/
def aliasedCore (pkg l : List Char) : Bool :=
  ("package".toList).isPrefixOf l &&
    wsStarThen (eqThenWs (fun r3 => (('"' :: pkg) ++ ['"']).isPrefixOf r3)) (l.drop 7)

/-- Second recognition regex of `update_manifest_path`, unanchored:
`package[\t\s]*=[\t\s]*"{package}"`. -/
def matchesAliased (pkg : List Char) : List Char → Bool :=
  searchThen (aliasedCore pkg)

/-- The candidate test `re.is_match(&line) || re2.is_match(&line)`. -/
def isCandidate (pkg line : List Char) : Bool :=
  matchesDirect pkg line || matchesAliased pkg line

/-- `format!("\"{}\"", v)`: a version string wrapped in double quotes. -/
def quoteVer (v : List Char) : List Char := '"' :: (v ++ ['"'])

/-- Fuel-indexed core of Rust `str::replace`: replace the leftmost occurrence
of `p`, continue scanning after the inserted replacement (occurrences never
overlap a replacement), otherwise move one character forward. -/
def strReplaceAux : Nat → List Char → List Char → List Char → List Char
  | 0, _, _, s => s
  | _ + 1, _, _, [] => []
  | fuel + 1, p, r, c :: rest =>
    if p.isPrefixOf (c :: rest) then
      r ++ strReplaceAux fuel p r ((c :: rest).drop p.length)
    else c :: strReplaceAux fuel p r rest

/-- Rust `str::replace p -> r` on `s`.  `s.length` is exactly enough fuel for
a nonempty pattern, since every step consumes at least one character; the only
pattern ever passed by the patcher is `quoteVer old`, which is nonempty. -/
def strReplace (p r s : List Char) : List Char :=
  strReplaceAux s.length p r s

/-- Substring containment, the condition under which `str::replace` changes
its input. -/
def containsSub (p : List Char) : List Char → Bool
  | [] => p.isEmpty
  | s@(_ :: rest) => p.isPrefixOf s || containsSub p rest

/-- One iteration of the line loop of `update_manifest_path`: on a candidate
line, `line.replace(&version, &new_version)`; other lines pass through. -/
def patchLine (pkg old new line : List Char) : List Char :=
  if isCandidate pkg line then strReplace (quoteVer old) (quoteVer new) line
  else line

/-- Strip one trailing carriage return, as `BufRead::lines` does after
removing a final `\n`. -/
def chompCr (l : List Char) : List Char :=
  if l.getLast? = some '\r' then l.dropLast else l

/-- Worker for `BufRead::lines`; `cur` holds the reversed characters of the
line currently being read. -/
def splitLinesAcc (cur : List Char) : List Char → List (List Char)
  | [] => if cur.isEmpty then [] else [cur.reverse]
  | c :: rest =>
    if c = '\n' then chompCr cur.reverse :: splitLinesAcc [] rest
    else splitLinesAcc (c :: cur) rest

/-- `BufRead::lines` over the whole file content: split at `\n`, strip the
terminator (and a `\r` immediately before it), yield a trailing unterminated
line, and no line at all for empty input. -/
def splitLines (content : List Char) : List (List Char) :=
  splitLinesAcc [] content

/-- `lines.join("\n")`. -/
def joinLines : List (List Char) → List Char
  | [] => []
  | [l] => l
  | l :: l2 :: ls => l ++ '\n' :: joinLines (l2 :: ls)

/-- Whether `update_manifest_path` sets its `updated` flag: some line is
changed by the replacement. -/
def patchModified (pkg old new content : List Char) : Bool :=
  (splitLines content).any (fun l => patchLine pkg old new l != l)

/-- File content after one `update_manifest_path` call: rewritten as the
patched lines joined with `\n` plus one final `\n` when the flag is set,
untouched otherwise. -/
def patchResult (pkg old new content : List Char) : List Char :=
  if patchModified pkg old new content then
    joinLines ((splitLines content).map (patchLine pkg old new)) ++ ['\n']
  else content

/-- Characters allowed in a cargo package name; for such names the two
recognition regexes interpret the interpolated name literally. -/
def isPkgNameChar (c : Char) : Bool := c.isAlphanum || c = '-' || c = '_'

/-- Split `seg` just before its last `)`: the greedy `.*` of the capture
regex backtracks to the last closing parenthesis. -/
def lastParenSplit (seg : List Char) : Option (List Char) :=
  match seg.reverse.dropWhile (fun c => c ≠ ')') with
  | [] => none
  | _ :: t => some t.reverse

/-- `Regex::new("file://(.*)\\)").captures(member)`, group 1: leftmost start
position at which `file://` is followed (on the same line, since `.` does not
match `\n`) by some `)`; the greedy `.*` captures up to the last such `)`. -/
def extractPath : List Char → Option (List Char)
  | [] => none
  | m@(_ :: rest) =>
    if ("file://".toList).isPrefixOf m then
      match lastParenSplit ((m.drop 7).takeWhile (fun c => c ≠ '\n')) with
      | some t => some t
      | none => extractPath rest
    else extractPath rest

/-- `PathBuf::push("Cargo.toml")`: append the manifest filename, inserting a
separator unless the path is empty or already ends with one. -/
def pushCargoToml (p : List Char) : List Char :=
  if p.isEmpty then "Cargo.toml".toList
  else if p.getLast? = some '/' then p ++ "Cargo.toml".toList
  else p ++ '/' :: "Cargo.toml".toList

/-- Manifest path derived from one member-location string. -/
def manifestOf (member : List Char) : Option (List Char) :=
  (extractPath member).map pushCargoToml

/-- `get_manifest_files` on the member list returned by the metadata
provider: every member must yield a capture (the code panics otherwise), and
the results keep the provider's order. -/
def getManifestFiles : List (List Char) → Option (List (List Char))
  | [] => some []
  | m :: rest =>
    match manifestOf m, getManifestFiles rest with
    | some p, some ps => some (p :: ps)
    | _, _ => none

/-- The per-manifest update loop of `main`, abstracted over the file contents
behind each path: collect, in iteration order, the paths for which
`update_manifest_path` returns `true`. -/
def runPatches (pkg old new : List Char) : List (List Char × List Char) → List (List Char)
  | [] => []
  | (path, content) :: rest =>
    if patchModified pkg old new content then path :: runPatches pkg old new rest
    else runPatches pkg old new rest

/-- A file whose every line is terminated by `\r\n`. -/
def crlfJoin : List (List Char) → List Char
  | [] => []
  | l :: ls => l ++ '\r' :: '\n' :: crlfJoin ls

/-- Modelled from the spec: a direct declaration line, one that "begins with
optional whitespace, then the exact package name, then optional whitespace,
then `=`". -/
def DirectDeclLine (pkg line : List Char) : Prop :=
  ∃ w1 w2 rest, line = w1 ++ pkg ++ w2 ++ '=' :: rest
    ∧ (∀ c ∈ w1, isWsChar c = true) ∧ (∀ c ∈ w2, isWsChar c = true)

/-- Modelled from the spec: an aliased declaration line, one "containing
`package` followed by `=` and a quoted string exactly equal to the package
name". -/
def AliasedDeclLine (pkg line : List Char) : Prop :=
  ∃ pre w1 w2 rest,
    line = pre ++ "package".toList ++ w1 ++ ('=' :: w2) ++ ('"' :: pkg) ++ '"' :: rest
    ∧ (∀ c ∈ w1, isWsChar c = true) ∧ (∀ c ∈ w2, isWsChar c = true)

/-!  Helper lemmas about list primitives. -/

theorem isPrefixOf_exists (p : List Char) :
    ∀ s : List Char, p.isPrefixOf s = true ↔ ∃ t, s = p ++ t := by
  induction p with
  | nil => intro s; simp [List.isPrefixOf]
  | cons a p ih =>
    intro s
    cases s with
    | nil => simp [List.isPrefixOf]
    | cons b t =>
      simp only [List.isPrefixOf, Bool.and_eq_true, beq_iff_eq, ih t,
        List.cons_append, List.cons.injEq]
      constructor
      · rintro ⟨h1, u, h2⟩; exact ⟨u, h1.symm, h2⟩
      · rintro ⟨u, h1, h2⟩; exact ⟨h1.symm, u, h2⟩

theorem drop_own_length (p t : List Char) : (p ++ t).drop p.length = t := by
  simp

theorem getLast?_drop_of_ne_nil {s : List Char} {n : Nat}
    (h : s.drop n ≠ []) : (s.drop n).getLast? = s.getLast? := by
  conv_rhs => rw [← List.take_append_drop n s]
  exact (List.getLast?_append_of_ne_nil _ h).symm

/-!  Characterisations of the two recognition regexes. -/

theorem wsStarThen_iff (k : List Char → Bool) :
    ∀ l : List Char, wsStarThen k l = true ↔
      ∃ w rest, l = w ++ rest ∧ (∀ c ∈ w, isWsChar c = true) ∧ k rest = true := by
  intro l
  induction l with
  | nil =>
    simp only [wsStarThen]
    constructor
    · intro h; exact ⟨[], [], rfl, by simp, h⟩
    · rintro ⟨w, rest, h1, _, h3⟩
      obtain ⟨rfl, rfl⟩ : w = [] ∧ rest = [] := List.append_eq_nil.mp h1.symm
      exact h3
  | cons c rest ih =>
    simp only [wsStarThen, Bool.or_eq_true, Bool.and_eq_true]
    constructor
    · rintro (h | ⟨hws, h⟩)
      · exact ⟨[], c :: rest, rfl, by simp, h⟩
      · obtain ⟨w, r, rfl, hw, hk⟩ := ih.mp h
        exact ⟨c :: w, r, rfl, by simpa using ⟨hws, hw⟩, hk⟩
    · rintro ⟨w, r, hl, hw, hk⟩
      cases w with
      | nil => left; simpa using hl ▸ hk
      | cons c2 w =>
        rw [List.cons_append] at hl
        obtain ⟨rfl, h2⟩ := List.cons.inj hl
        right
        exact ⟨hw c (by simp), ih.mpr ⟨w, r, h2, fun x hx => hw x (by simp [hx]), hk⟩⟩

theorem searchThen_iff (k : List Char → Bool) :
    ∀ l : List Char, searchThen k l = true ↔ ∃ a rest, l = a ++ rest ∧ k rest = true := by
  intro l
  induction l with
  | nil =>
    simp only [searchThen]
    constructor
    · intro h; exact ⟨[], [], rfl, h⟩
    · rintro ⟨a, rest, h1, h3⟩
      obtain ⟨rfl, rfl⟩ : a = [] ∧ rest = [] := List.append_eq_nil.mp h1.symm
      exact h3
  | cons c rest ih =>
    simp only [searchThen, Bool.or_eq_true]
    constructor
    · rintro (h | h)
      · exact ⟨[], c :: rest, rfl, h⟩
      · obtain ⟨a, r, rfl, hk⟩ := ih.mp h
        exact ⟨c :: a, r, rfl, hk⟩
    · rintro ⟨a, r, hl, hk⟩
      cases a with
      | nil => left; simpa using hl ▸ hk
      | cons c2 a =>
        rw [List.cons_append] at hl
        obtain ⟨rfl, h2⟩ := List.cons.inj hl
        right
        exact ih.mpr ⟨a, r, h2, hk⟩

theorem eqHead_iff (l : List Char) : eqHead l = true ↔ ∃ r, l = '=' :: r := by
  cases l with
  | nil => simp [eqHead]
  | cons c r =>
    simp only [eqHead, decide_eq_true_eq, List.cons.injEq]
    constructor
    · intro h; exact ⟨r, h, rfl⟩
    · rintro ⟨r2, h1, rfl⟩; exact h1

theorem eqThenWs_iff (k : List Char → Bool) (l : List Char) :
    eqThenWs k l = true ↔ ∃ r, l = '=' :: r ∧ wsStarThen k r = true := by
  cases l with
  | nil => simp [eqThenWs]
  | cons c r =>
    simp only [eqThenWs, Bool.and_eq_true, decide_eq_true_eq, List.cons.injEq]
    constructor
    · rintro ⟨h1, h2⟩; exact ⟨r, ⟨h1, rfl⟩, h2⟩
    · rintro ⟨r2, ⟨h1, rfl⟩, h2⟩; exact ⟨h1, h2⟩

theorem matchesDirect_iff (pkg line : List Char) :
    matchesDirect pkg line = true ↔ DirectDeclLine pkg line := by
  unfold matchesDirect DirectDeclLine
  rw [wsStarThen_iff]
  constructor
  · rintro ⟨w1, r, rfl, hw1, hk⟩
    rw [Bool.and_eq_true] at hk
    obtain ⟨hp, hrest⟩ := hk
    obtain ⟨t, rfl⟩ := (isPrefixOf_exists pkg r).mp hp
    rw [drop_own_length, wsStarThen_iff] at hrest
    obtain ⟨w2, r2, rfl, hw2, hek⟩ := hrest
    obtain ⟨r3, rfl⟩ := (eqHead_iff r2).mp hek
    exact ⟨w1, w2, r3, by simp, hw1, hw2⟩
  · rintro ⟨w1, w2, rest, rfl, hw1, hw2⟩
    refine ⟨w1, pkg ++ (w2 ++ '=' :: rest), by simp, hw1, ?_⟩
    rw [Bool.and_eq_true]
    refine ⟨(isPrefixOf_exists pkg _).mpr ⟨w2 ++ '=' :: rest, rfl⟩, ?_⟩
    rw [drop_own_length, wsStarThen_iff]
    exact ⟨w2, '=' :: rest, rfl, hw2, by simp [eqHead]⟩

theorem matchesAliased_iff (pkg line : List Char) :
    matchesAliased pkg line = true ↔ AliasedDeclLine pkg line := by
  unfold matchesAliased AliasedDeclLine
  rw [searchThen_iff]
  constructor
  · rintro ⟨pre, l2, rfl, hcore⟩
    rw [aliasedCore, Bool.and_eq_true] at hcore
    obtain ⟨hp, hrest⟩ := hcore
    obtain ⟨t, rfl⟩ := (isPrefixOf_exists _ l2).mp hp
    rw [show (7 : Nat) = ("package".toList).length from rfl, drop_own_length,
      wsStarThen_iff] at hrest
    obtain ⟨w1, r2, rfl, hw1, hek⟩ := hrest
    rw [eqThenWs_iff] at hek
    obtain ⟨r3, rfl, hst⟩ := hek
    rw [wsStarThen_iff] at hst
    obtain ⟨w2, r4, rfl, hw2, hq⟩ := hst
    obtain ⟨rest, rfl⟩ := (isPrefixOf_exists _ r4).mp hq
    exact ⟨pre, w1, w2, rest, by simp, hw1, hw2⟩
  · rintro ⟨pre, w1, w2, rest, rfl, hw1, hw2⟩
    refine ⟨pre, "package".toList ++ (w1 ++ (('=' :: w2) ++ (('"' :: pkg) ++ '"' :: rest))),
      by simp, ?_⟩
    rw [aliasedCore, Bool.and_eq_true]
    refine ⟨(isPrefixOf_exists _ _).mpr
      ⟨w1 ++ (('=' :: w2) ++ (('"' :: pkg) ++ '"' :: rest)), rfl⟩, ?_⟩
    rw [show (7 : Nat) = ("package".toList).length from rfl, drop_own_length,
      wsStarThen_iff]
    refine ⟨w1, ('=' :: w2) ++ (('"' :: pkg) ++ '"' :: rest), rfl, hw1, ?_⟩
    rw [eqThenWs_iff]
    refine ⟨w2 ++ (('"' :: pkg) ++ '"' :: rest), by simp, ?_⟩
    rw [wsStarThen_iff]
    refine ⟨w2, ('"' :: pkg) ++ '"' :: rest, rfl, hw2, ?_⟩
    exact (isPrefixOf_exists _ _).mpr ⟨rest, by simp⟩

/-!  Lemmas about the embedded `str::replace`. -/

theorem strReplaceAux_nil (fuel : Nat) (p r : List Char) :
    strReplaceAux fuel p r [] = [] := by
  cases fuel <;> rfl

theorem strReplaceAux_self (p : List Char) :
    ∀ (fuel : Nat) (s : List Char), strReplaceAux fuel p p s = s := by
  intro fuel
  induction fuel with
  | zero => intro s; rfl
  | succ n ih =>
    intro s
    cases s with
    | nil => rfl
    | cons c rest =>
      by_cases h : p.isPrefixOf (c :: rest) = true
      · obtain ⟨t, ht⟩ := (isPrefixOf_exists p (c :: rest)).mp h
        simp only [strReplaceAux, h, if_true]
        rw [ht, drop_own_length, ih]
      · simp only [strReplaceAux, h, if_false, Bool.false_eq_true]
        rw [ih]

theorem strReplaceAux_of_not_contains (p r : List Char) :
    ∀ (fuel : Nat) (s : List Char), containsSub p s = false →
      strReplaceAux fuel p r s = s := by
  intro fuel
  induction fuel with
  | zero => intro s _; rfl
  | succ n ih =>
    intro s hs
    cases s with
    | nil => rfl
    | cons c rest =>
      rw [containsSub, Bool.or_eq_false_iff] at hs
      simp only [strReplaceAux, hs.1, if_false, Bool.false_eq_true]
      rw [ih rest hs.2]

theorem strReplaceAux_mem (p r : List Char) :
    ∀ (fuel : Nat) (s : List Char) (c : Char),
      c ∈ strReplaceAux fuel p r s → c ∈ s ∨ c ∈ r := by
  intro fuel
  induction fuel with
  | zero => intro s c h; exact Or.inl h
  | succ n ih =>
    intro s c h
    cases s with
    | nil => simp [strReplaceAux] at h
    | cons a rest =>
      by_cases hp : p.isPrefixOf (a :: rest) = true
      · simp only [strReplaceAux, hp, if_true, List.mem_append] at h
        rcases h with h | h
        · exact Or.inr h
        · rcases ih _ c h with h2 | h2
          · exact Or.inl (List.drop_subset _ _ h2)
          · exact Or.inr h2
      · simp only [strReplaceAux, hp, if_false, Bool.false_eq_true, List.mem_cons] at h
        rcases h with rfl | h
        · exact Or.inl (by simp)
        · rcases ih _ c h with h2 | h2
          · exact Or.inl (by simp [h2])
          · exact Or.inr h2

theorem strReplaceAux_getLast (p r : List Char) (hr : r ≠ []) :
    ∀ (fuel : Nat) (s : List Char), s ≠ [] →
      strReplaceAux fuel p r s ≠ [] ∧
        ((strReplaceAux fuel p r s).getLast? = s.getLast? ∨
          (strReplaceAux fuel p r s).getLast? = r.getLast?) := by
  intro fuel
  induction fuel with
  | zero => intro s hs; exact ⟨hs, Or.inl rfl⟩
  | succ n ih =>
    intro s hs
    cases s with
    | nil => exact absurd rfl hs
    | cons c rest =>
      by_cases hp : p.isPrefixOf (c :: rest) = true
      · simp only [strReplaceAux, hp, if_true]
        by_cases hd : (c :: rest).drop p.length = []
        · rw [hd, strReplaceAux_nil, List.append_nil]
          exact ⟨hr, Or.inr rfl⟩
        · obtain ⟨hne, hl⟩ := ih ((c :: rest).drop p.length) hd
          refine ⟨by simp [hne], ?_⟩
          rw [List.getLast?_append_of_ne_nil _ hne]
          rcases hl with h | h
          · exact Or.inl (h.trans (getLast?_drop_of_ne_nil hd))
          · exact Or.inr h
      · simp only [strReplaceAux, hp, if_false, Bool.false_eq_true]
        by_cases hrest : rest = []
        · subst hrest
          rw [strReplaceAux_nil]
          exact ⟨by simp, Or.inl rfl⟩
        · obtain ⟨hne, hl⟩ := ih rest hrest
          refine ⟨by simp, ?_⟩
          rw [show c :: strReplaceAux n p r rest = [c] ++ strReplaceAux n p r rest from rfl,
            List.getLast?_append_of_ne_nil _ hne,
            show (c :: rest).getLast? = ([c] ++ rest).getLast? from rfl,
            List.getLast?_append_of_ne_nil _ hrest]
          exact hl

theorem strReplace_self (p s : List Char) : strReplace p p s = s :=
  strReplaceAux_self p s.length s

theorem strReplace_of_not_contains (p r s : List Char)
    (h : containsSub p s = false) : strReplace p r s = s :=
  strReplaceAux_of_not_contains p r s.length s h

theorem strReplace_mem (p r s : List Char) (c : Char)
    (h : c ∈ strReplace p r s) : c ∈ s ∨ c ∈ r :=
  strReplaceAux_mem p r s.length s c h

theorem strReplace_getLast (p r s : List Char) (hr : r ≠ []) (hs : s ≠ []) :
    strReplace p r s ≠ [] ∧
      ((strReplace p r s).getLast? = s.getLast? ∨
        (strReplace p r s).getLast? = r.getLast?) :=
  strReplaceAux_getLast p r hr s.length s hs

/-!  Lemmas about the per-line transform. -/

theorem patchLine_of_candidate (pkg old new line : List Char)
    (h : isCandidate pkg line = true) :
    patchLine pkg old new line = strReplace (quoteVer old) (quoteVer new) line := by
  simp [patchLine, h]

theorem patchLine_of_not_candidate (pkg old new line : List Char)
    (h : isCandidate pkg line = false) :
    patchLine pkg old new line = line := by
  simp [patchLine, h]

theorem patchLine_of_not_contains (pkg old new line : List Char)
    (h : containsSub (quoteVer old) line = false) :
    patchLine pkg old new line = line := by
  unfold patchLine
  split
  · exact strReplace_of_not_contains _ _ _ h
  · rfl

theorem patchLine_same_ver (pkg v line : List Char) : patchLine pkg v v line = line := by
  unfold patchLine
  split
  · exact strReplace_self _ _
  · rfl

theorem quoteVer_ne_nil (v : List Char) : quoteVer v ≠ [] := by
  simp [quoteVer]

theorem quoteVer_getLast (v : List Char) : (quoteVer v).getLast? = some '"' := by
  unfold quoteVer
  rw [show '"' :: (v ++ ['"']) = ('"' :: v) ++ ['"'] by simp, List.getLast?_concat]

theorem quoteVer_mem (v : List Char) (c : Char) (h : c ∈ quoteVer v) :
    c = '"' ∨ c ∈ v := by
  unfold quoteVer at h
  rcases List.mem_cons.mp h with h1 | h1
  · exact Or.inl h1
  · rcases List.mem_append.mp h1 with h2 | h2
    · exact Or.inr h2
    · rw [List.mem_singleton] at h2
      exact Or.inl h2

theorem patchLine_getLast (pkg old new t : List Char) (ht : t ≠ [])
    (h2 : t.getLast? ≠ some '\n') :
    patchLine pkg old new t ≠ [] ∧ (patchLine pkg old new t).getLast? ≠ some '\n' := by
  unfold patchLine
  split
  · obtain ⟨hne, hl⟩ := strReplace_getLast (quoteVer old) (quoteVer new) t
      (quoteVer_ne_nil new) ht
    refine ⟨hne, ?_⟩
    rcases hl with h | h
    · rw [h]; exact h2
    · rw [h, quoteVer_getLast]; simp
  · exact ⟨ht, h2⟩

/-!  Lemmas about line splitting and joining. -/

theorem chompCr_subset (l : List Char) (c : Char) (h : c ∈ chompCr l) : c ∈ l := by
  unfold chompCr at h
  split at h
  · exact List.dropLast_subset l h
  · exact h

theorem splitLinesAcc_no_newline :
    ∀ (s cur : List Char), '\n' ∉ cur → ∀ l ∈ splitLinesAcc cur s, '\n' ∉ l := by
  intro s
  induction s with
  | nil =>
    intro cur hcur l hl
    rw [splitLinesAcc] at hl
    split at hl
    · simp at hl
    · rw [List.mem_singleton] at hl
      subst hl
      simpa using hcur
  | cons c rest ih =>
    intro cur hcur l hl
    rw [splitLinesAcc] at hl
    split at hl
    · rw [List.mem_cons] at hl
      rcases hl with rfl | hl
      · intro hmem
        have := chompCr_subset _ _ hmem
        rw [List.mem_reverse] at this
        exact hcur this
      · exact ih [] (by simp) l hl
    · next hc =>
      refine ih (c :: cur) ?_ l hl
      intro hmem
      rcases List.mem_cons.mp hmem with h | h
      · exact hc h.symm
      · exact hcur h

theorem splitLines_no_newline (content : List Char) :
    ∀ l ∈ splitLines content, '\n' ∉ l :=
  splitLinesAcc_no_newline content [] (by simp)

theorem getLast?_cons_of_ne_nil {c : Char} {l : List Char} (h : l ≠ []) :
    (c :: l).getLast? = l.getLast? := by
  rw [show c :: l = [c] ++ l from rfl, List.getLast?_append_of_ne_nil _ h]

theorem splitLinesAcc_ends :
    ∀ (s cur : List Char), s.getLast? ≠ some '\n' → (s ≠ [] ∨ cur ≠ []) →
      ∃ M t, splitLinesAcc cur s = M ++ [t] ∧ t ≠ [] ∧
        t.getLast? = (if s.isEmpty then cur.head? else s.getLast?) := by
  intro s
  induction s with
  | nil =>
    intro cur _ hne
    have hcur : cur ≠ [] := by
      rcases hne with h | h
      · exact absurd rfl h
      · exact h
    refine ⟨[], cur.reverse, ?_, by simpa using hcur, ?_⟩
    · rw [splitLinesAcc, if_neg (by simpa using hcur)]
      rfl
    · simp [List.getLast?_reverse]
  | cons c rest ih =>
    intro cur hlast _
    rw [splitLinesAcc]
    by_cases hc : c = '\n'
    · subst hc
      have hrest : rest ≠ [] := by
        intro h
        subst h
        exact hlast rfl
      obtain ⟨M, t, heq, hne, hl⟩ := ih [] (by
          cases rest with
          | nil => simp
          | cons r1 r2 => rwa [List.getLast?_cons_cons] at hlast)
        (Or.inl hrest)
      rw [if_pos rfl, heq]
      refine ⟨chompCr cur.reverse :: M, t, by simp, hne, ?_⟩
      rw [hl, if_neg (by simpa using hrest), if_neg (by simp),
        getLast?_cons_of_ne_nil hrest]
    · rw [if_neg hc]
      obtain ⟨M, t, heq, hne, hl⟩ := ih (c :: cur) (by
          cases rest with
          | nil => simp
          | cons r1 r2 => rwa [List.getLast?_cons_cons] at hlast)
        (Or.inr (by simp))
      refine ⟨M, t, heq, hne, ?_⟩
      rw [hl]
      cases rest with
      | nil => simp
      | cons r1 r2 =>
        rw [if_neg (by simp), if_neg (by simp), List.getLast?_cons_cons]

theorem splitLinesAcc_append_no_newline :
    ∀ (l cur s : List Char), '\n' ∉ l →
      splitLinesAcc cur (l ++ s) = splitLinesAcc (l.reverse ++ cur) s := by
  intro l
  induction l with
  | nil => intro cur s _; simp
  | cons c l ih =>
    intro cur s hmem
    rw [List.cons_append, splitLinesAcc,
      if_neg (by intro h; exact hmem (by simp [h])),
      ih (c :: cur) s (by intro h; exact hmem (by simp [h]))]
    congr 1
    simp

theorem splitLines_crlf :
    ∀ L : List (List Char), (∀ l ∈ L, '\n' ∉ l) → splitLines (crlfJoin L) = L := by
  intro L
  induction L with
  | nil => intro _; rfl
  | cons l ls ih =>
    intro hL
    unfold splitLines crlfJoin
    rw [show l ++ '\r' :: '\n' :: crlfJoin ls = l ++ ('\r' :: '\n' :: crlfJoin ls) from rfl,
      splitLinesAcc_append_no_newline l [] _ (hL l (by simp)),
      splitLinesAcc, if_neg (by simp), splitLinesAcc, if_pos rfl]
    congr 1
    · rw [show ('\r' :: (l.reverse ++ [])).reverse = l ++ ['\r'] by simp,
        chompCr, if_pos (show (l ++ ['\r']).getLast? = some '\r' by
          rw [List.getLast?_concat]), List.dropLast_concat]
    · exact ih fun x hx => hL x (by simp [hx])

theorem joinLines_ends :
    ∀ (M : List (List Char)) (t : List Char), t ≠ [] →
      joinLines (M ++ [t]) ≠ [] ∧ (joinLines (M ++ [t])).getLast? = t.getLast? := by
  intro M
  induction M with
  | nil => intro t ht; exact ⟨ht, rfl⟩
  | cons m M ih =>
    intro t ht
    obtain ⟨hne, hl⟩ := ih t ht
    cases hM : M ++ [t] with
    | nil => exact absurd hM (by simp)
    | cons l2 ls =>
      rw [List.cons_append, hM, joinLines]
      rw [hM] at hne hl
      constructor
      · simp
      · rw [List.getLast?_append_of_ne_nil _ (by simp), getLast?_cons_of_ne_nil hne, hl]

theorem joinLines_mem :
    ∀ (L : List (List Char)) (c : Char), c ∈ joinLines L → c = '\n' ∨ ∃ l ∈ L, c ∈ l := by
  intro L
  induction L with
  | nil => intro c h; simp [joinLines] at h
  | cons l ls ih =>
    intro c h
    cases ls with
    | nil =>
      rw [joinLines] at h
      exact Or.inr ⟨l, by simp, h⟩
    | cons l2 ls2 =>
      rw [joinLines, List.mem_append, List.mem_cons] at h
      rcases h with h | rfl | h
      · exact Or.inr ⟨l, by simp, h⟩
      · exact Or.inl rfl
      · rcases ih c h with h2 | ⟨x, hx, hcx⟩
        · exact Or.inl h2
        · exact Or.inr ⟨x, by simp [List.mem_cons] at hx ⊢; tauto, hcx⟩

/-!  Facts about the whole-file transform. -/

theorem patchModified_eq_false (pkg old new content : List Char)
    (h : ∀ l ∈ splitLines content, patchLine pkg old new l = l) :
    patchModified pkg old new content = false := by
  rw [patchModified, List.any_eq_false]
  intro l hl
  simp [h l hl]

theorem patchResult_of_not_modified (pkg old new content : List Char)
    (h : patchModified pkg old new content = false) :
    patchResult pkg old new content = content := by
  rw [patchResult, h]
  simp

theorem patchResult_of_modified (pkg old new content : List Char)
    (h : patchModified pkg old new content = true) :
    patchResult pkg old new content
      = joinLines ((splitLines content).map (patchLine pkg old new)) ++ ['\n'] := by
  rw [patchResult, h]
  simp

/-!  The claims. -/

/-- Claim C1: a patch call either leaves the file byte-identical (returning
false), or rewrites it so that the new content is the patched line sequence
(same length, same order) rejoined with `\n`; position by position, a line
not matching either recognition pattern is preserved verbatim, and a matching
line is exactly the original with its quoted old-version occurrences
substituted by the quoted new version. -/
theorem patch_file_invariant (pkg old new content : List Char) :
    (patchModified pkg old new content = false → patchResult pkg old new content = content)
    ∧ (patchModified pkg old new content = true →
        patchResult pkg old new content
          = joinLines ((splitLines content).map (patchLine pkg old new)) ++ ['\n'])
    ∧ ((splitLines content).map (patchLine pkg old new)).length
        = (splitLines content).length
    ∧ ∀ (i : Nat) (h : i < (splitLines content).length),
        ((splitLines content).map (patchLine pkg old new)).get ⟨i, by simpa using h⟩
          = (if isCandidate pkg ((splitLines content).get ⟨i, h⟩) then
              strReplace (quoteVer old) (quoteVer new) ((splitLines content).get ⟨i, h⟩)
            else (splitLines content).get ⟨i, h⟩) := by
  refine ⟨patchResult_of_not_modified pkg old new content,
    patchResult_of_modified pkg old new content, by simp, ?_⟩
  intro i h
  simp only [List.get_eq_getElem, List.getElem_map]
  rfl

/-- Witness for C1 at a concrete file: the second line is rewritten, the
comment line is preserved at its position. -/
theorem patch_file_invariant_witness :
    patchResult "foo".toList "1.2.3".toList "1.2.4".toList ("# c\nfoo = \"1.2.3\"".toList)
      = joinLines ((splitLines ("# c\nfoo = \"1.2.3\"".toList)).map
          (patchLine "foo".toList "1.2.3".toList "1.2.4".toList)) ++ ['\n']
    ∧ ((splitLines ("# c\nfoo = \"1.2.3\"".toList)).map
          (patchLine "foo".toList "1.2.3".toList "1.2.4".toList)).get ⟨0, by decide⟩
        = (if isCandidate "foo".toList ((splitLines ("# c\nfoo = \"1.2.3\"".toList)).get
              ⟨0, by decide⟩) then
            strReplace (quoteVer "1.2.3".toList) (quoteVer "1.2.4".toList)
              ((splitLines ("# c\nfoo = \"1.2.3\"".toList)).get ⟨0, by decide⟩)
          else (splitLines ("# c\nfoo = \"1.2.3\"".toList)).get ⟨0, by decide⟩) :=
  ⟨(patch_file_invariant _ _ _ _).2.1 (by decide),
    (patch_file_invariant _ _ _ _).2.2.2 0 (by decide)⟩

/-- Claim C2 is false as stated; counterexample: overlapping occurrences of
the quoted old version leave an occurrence behind after the first call, so
the second call changes the file again. -/
theorem patch_twice_ne_patch_once :
    patchResult "foo".toList "1.2.3".toList "1.2.4".toList
        (patchResult "foo".toList "1.2.3".toList "1.2.4".toList
          ("foo = \"1.2.3\"1.2.3\"".toList))
      ≠ patchResult "foo".toList "1.2.3".toList "1.2.4".toList
          ("foo = \"1.2.3\"1.2.3\"".toList) := by
  decide

/-- Claim C2, amended: a second patch call changes nothing provided that
after the first call no candidate line still contains the quoted old
version (as the spec expects: "second run finds no old-version substring
left to replace"). -/
theorem patch_idempotent_of_no_residual (pkg old new content : List Char)
    (h : ((splitLines (patchResult pkg old new content)).all
        (fun l => !(isCandidate pkg l && containsSub (quoteVer old) l))) = true) :
    patchResult pkg old new (patchResult pkg old new content)
      = patchResult pkg old new content := by
  apply patchResult_of_not_modified
  apply patchModified_eq_false
  intro l hl
  have hline := List.all_eq_true.mp h l hl
  rw [Bool.not_eq_true', Bool.and_eq_false_iff] at hline
  rcases hline with hc | hc
  · exact patchLine_of_not_candidate pkg old new l hc
  · exact patchLine_of_not_contains pkg old new l hc

/-- Witness for the amended C2 on an ordinary manifest line. -/
theorem patch_idempotent_of_no_residual_witness :
    patchResult "foo".toList "1.2.3".toList "1.2.4".toList
        (patchResult "foo".toList "1.2.3".toList "1.2.4".toList ("foo = \"1.2.3\"".toList))
      = patchResult "foo".toList "1.2.3".toList "1.2.4".toList ("foo = \"1.2.3\"".toList) :=
  patch_idempotent_of_no_residual _ _ _ _ (by decide)

/-- Claim C3: a line is a candidate only if it is a direct declaration
(optional whitespace, the exact package name, optional whitespace, `=`) or
an aliased declaration (contains `package`, `=`, and the quoted package
name); in particular `foobar = "1.2.3"` is not a candidate for package
`foo` and is left unchanged. -/
theorem candidate_recognition :
    (∀ pkg line : List Char, pkg.all isPkgNameChar = true → isCandidate pkg line = true →
        DirectDeclLine pkg line ∨ AliasedDeclLine pkg line)
    ∧ isCandidate "foo".toList ("foobar = \"1.2.3\"".toList) = false
    ∧ patchLine "foo".toList "1.2.3".toList "1.2.4".toList ("foobar = \"1.2.3\"".toList)
        = "foobar = \"1.2.3\"".toList := by
  refine ⟨?_, by decide, by decide⟩
  intro pkg line _ h
  rw [isCandidate, Bool.or_eq_true] at h
  rcases h with h | h
  · exact Or.inl ((matchesDirect_iff pkg line).mp h)
  · exact Or.inr ((matchesAliased_iff pkg line).mp h)

/-- Witness for C3 on the direct declaration `foo = "1.2.3"`. -/
theorem candidate_recognition_witness :
    DirectDeclLine "foo".toList ("foo = \"1.2.3\"".toList)
      ∨ AliasedDeclLine "foo".toList ("foo = \"1.2.3\"".toList) :=
  candidate_recognition.1 "foo".toList ("foo = \"1.2.3\"".toList) (by decide) (by decide)

/-- Claim C4: on a candidate line the patcher performs exactly the
quoted-old-for-quoted-new replacement of `str::replace`; a line without the
quoted old version is left unchanged and does not count as a modification;
`foo = "1.2.3"` becomes `foo = "1.2.4"`, and every occurrence on the line
is substituted. -/
theorem candidate_substitution :
    (∀ pkg old new line : List Char, isCandidate pkg line = true →
        patchLine pkg old new line = strReplace (quoteVer old) (quoteVer new) line)
    ∧ (∀ pkg old new line : List Char, containsSub (quoteVer old) line = false →
        patchLine pkg old new line = line
        ∧ (patchLine pkg old new line != line) = false)
    ∧ patchLine "foo".toList "1.2.3".toList "1.2.4".toList ("foo = \"1.2.3\"".toList)
        = "foo = \"1.2.4\"".toList
    ∧ patchLine "foo".toList "1.2.3".toList "1.2.4".toList
        ("foo = \x7b version = \"1.2.3\" \x7d # \"1.2.3\"".toList)
        = "foo = \x7b version = \"1.2.4\" \x7d # \"1.2.4\"".toList := by
  refine ⟨patchLine_of_candidate, ?_, by decide, by decide⟩
  intro pkg old new line h
  have he := patchLine_of_not_contains pkg old new line h
  exact ⟨he, by simp [he]⟩

/-- Witness for C4: a candidate line whose version differs from the old one
is left unchanged. -/
theorem candidate_substitution_witness :
    patchLine "foo".toList "9.9.9".toList "8.8.8".toList ("foo = \"1.2.3\"".toList)
      = strReplace (quoteVer "9.9.9".toList) (quoteVer "8.8.8".toList)
          ("foo = \"1.2.3\"".toList)
    ∧ patchLine "foo".toList "9.9.9".toList "8.8.8".toList ("foo = \"1.2.3\"".toList)
        = "foo = \"1.2.3\"".toList :=
  ⟨candidate_substitution.1 _ _ _ _ (by decide),
    (candidate_substitution.2.1 _ _ _ _ (by decide)).1⟩

/-- Claim C5 is false as stated: when the old version equals the package
name, the quoted old version occurs inside the `package = "<name>"` segment
itself, and the replacement rewrites that segment too. -/
theorem aliased_segment_rewritten :
    matchesAliased "foo".toList
        ("bar = \x7b package = \"foo\", version = \"foo\" \x7d".toList) = true
    ∧ patchLine "foo".toList "foo".toList "1.2.4".toList
        ("bar = \x7b package = \"foo\", version = \"foo\" \x7d".toList)
        = "bar = \x7b package = \"1.2.4\", version = \"1.2.4\" \x7d".toList
    ∧ containsSub ("package = \"foo\"".toList)
        (patchLine "foo".toList "foo".toList "1.2.4".toList
          ("bar = \x7b package = \"foo\", version = \"foo\" \x7d".toList)) = false := by
  refine ⟨by decide, by decide, by decide⟩

/-- Claim C5, amended: a line containing `package = "<name>"` is a
candidate, and the patcher substitutes the quoted old-version occurrences on
it; the `package = "<name>"` segment is rewritten too when the quoted old
version occurs inside it (for example when the old version equals the
package name), and is untouched otherwise; on the spec's example the version
is rewritten to `"1.2.4"` and `package = "foo"` is untouched. -/
theorem aliased_candidate_substitution :
    (∀ pkg line : List Char, AliasedDeclLine pkg line → isCandidate pkg line = true)
    ∧ (∀ pkg old new line : List Char, isCandidate pkg line = true →
        patchLine pkg old new line = strReplace (quoteVer old) (quoteVer new) line)
    ∧ patchLine "foo".toList "1.2.3".toList "1.2.4".toList
        ("bar = \x7b package = \"foo\", version = \"1.2.3\" \x7d".toList)
        = "bar = \x7b package = \"foo\", version = \"1.2.4\" \x7d".toList
    ∧ containsSub ("package = \"foo\"".toList)
        (patchLine "foo".toList "1.2.3".toList "1.2.4".toList
          ("bar = \x7b package = \"foo\", version = \"1.2.3\" \x7d".toList)) = true := by
  refine ⟨?_, patchLine_of_candidate, by decide, by decide⟩
  intro pkg line h
  rw [isCandidate, Bool.or_eq_true]
  exact Or.inr ((matchesAliased_iff pkg line).mpr h)

/-- Witness for the amended C5: the spec's aliased example line is a
candidate via an explicit decomposition. -/
theorem aliased_candidate_substitution_witness :
    isCandidate "foo".toList
        ("bar = \x7b package = \"foo\", version = \"1.2.3\" \x7d".toList) = true :=
  aliased_candidate_substitution.1 "foo".toList
    ("bar = \x7b package = \"foo\", version = \"1.2.3\" \x7d".toList)
    ⟨"bar = \x7b ".toList, " ".toList, " ".toList, ", version = \"1.2.3\" \x7d".toList,
      by decide, by decide, by decide⟩

/-- Claim C6: whenever the patcher rewrites a file, the new content is the
line sequence rejoined with single `\n` separators plus exactly one appended
trailing `\n`, regardless of the original trailing newline; the output ends
with `\n`, and when the original file did not end with a newline the joined
part does not end with `\n`, so exactly one trailing newline results. -/
theorem rewrite_trailing_newline (pkg old new content : List Char)
    (h : patchModified pkg old new content = true) :
    patchResult pkg old new content
      = joinLines ((splitLines content).map (patchLine pkg old new)) ++ ['\n']
    ∧ (patchResult pkg old new content).getLast? = some '\n'
    ∧ (content.getLast? ≠ some '\n' →
        (joinLines ((splitLines content).map (patchLine pkg old new))).getLast?
          ≠ some '\n') := by
  have h1 := patchResult_of_modified pkg old new content h
  refine ⟨h1, by rw [h1, List.getLast?_concat], ?_⟩
  intro hlast
  have hcne : content ≠ [] := by
    intro hc
    subst hc
    rw [patchModified] at h
    simp [splitLines, splitLinesAcc] at h
  obtain ⟨M, t, hsplit, htne, htlast⟩ :=
    splitLinesAcc_ends content [] hlast (Or.inl hcne)
  rw [if_neg (by simpa using hcne)] at htlast
  have hmap : (splitLines content).map (patchLine pkg old new)
      = M.map (patchLine pkg old new) ++ [patchLine pkg old new t] := by
    rw [show splitLines content = M ++ [t] from hsplit]
    simp
  obtain ⟨hpne, hplast⟩ := patchLine_getLast pkg old new t htne (by rw [htlast]; exact hlast)
  rw [hmap]
  obtain ⟨_, hjlast⟩ := joinLines_ends (M.map (patchLine pkg old new)) _ hpne
  rw [hjlast]
  exact hplast

/-- Witness for C6 on a file without a trailing newline. -/
theorem rewrite_trailing_newline_witness :
    patchResult "foo".toList "1.2.3".toList "1.2.4".toList ("foo = \"1.2.3\"".toList)
      = joinLines ((splitLines ("foo = \"1.2.3\"".toList)).map
          (patchLine "foo".toList "1.2.3".toList "1.2.4".toList)) ++ ['\n']
    ∧ (patchResult "foo".toList "1.2.3".toList "1.2.4".toList
        ("foo = \"1.2.3\"".toList)).getLast? = some '\n'
    ∧ (joinLines ((splitLines ("foo = \"1.2.3\"".toList)).map
          (patchLine "foo".toList "1.2.3".toList "1.2.4".toList))).getLast?
        ≠ some '\n' :=
  ⟨(rewrite_trailing_newline _ _ _ _ (by decide)).1,
    (rewrite_trailing_newline _ _ _ _ (by decide)).2.1,
    (rewrite_trailing_newline _ _ _ _ (by decide)).2.2 (by decide)⟩

/-- Claim C7: the locator turns every member-location list into one manifest
path per entry, in the same order with no deduplication or sorting, each
obtained by extracting the `file://<path>)` capture and appending the
manifest filename; `file:///workspace/crateA)` yields
`/workspace/crateA/Cargo.toml`. -/
theorem locator_mapping :
    (∀ members out : List (List Char), getManifestFiles members = some out →
        out.length = members.length
        ∧ ∀ (i : Nat) (h1 : i < members.length) (h2 : i < out.length),
            manifestOf (members.get ⟨i, h1⟩) = some (out.get ⟨i, h2⟩))
    ∧ manifestOf ("file:///workspace/crateA)".toList)
        = some ("/workspace/crateA/Cargo.toml".toList) := by
  refine ⟨?_, by decide⟩
  intro members
  induction members with
  | nil =>
    intro out h
    rw [getManifestFiles] at h
    obtain rfl := Option.some.inj h
    exact ⟨rfl, fun i h1 => absurd h1 (by simp)⟩
  | cons m rest ih =>
    intro out h
    rw [getManifestFiles] at h
    cases hm : manifestOf m with
    | none => rw [hm] at h; cases h
    | some p =>
      cases hr : getManifestFiles rest with
      | none => rw [hm, hr] at h; cases h
      | some ps =>
        rw [hm, hr] at h
        obtain rfl := Option.some.inj h
        obtain ⟨hlen, hget⟩ := ih ps hr
        refine ⟨by simp [hlen], ?_⟩
        intro i h1 h2
        cases i with
        | zero => simpa using hm
        | succ j => simpa using hget j (by simpa using h1) (by simpa using h2)

/-- Witness for C7 on a one-member list. -/
theorem locator_mapping_witness :
    (["/workspace/crateA/Cargo.toml".toList] : List (List Char)).length
      = (["file:///workspace/crateA)".toList] : List (List Char)).length
    ∧ manifestOf ((["file:///workspace/crateA)".toList] : List (List Char)).get ⟨0, by decide⟩)
        = some ((["/workspace/crateA/Cargo.toml".toList] : List (List Char)).get
            ⟨0, by decide⟩) :=
  ⟨(locator_mapping.1 _ _ (by decide)).1,
    (locator_mapping.1 _ _ (by decide)).2 0 (by decide) (by decide)⟩

/-- Claim C8: the orchestrator reports exactly the paths of the manifests
for which the patcher returned true, in discovery order; with three
manifests of which only the first and the third contain the dependency at
the old version, exactly those two paths are reported, in that order. -/
theorem report_exactly_modified :
    (∀ (pkg old new : List Char) (files : List (List Char × List Char)),
        runPatches pkg old new files
          = (files.filter (fun f => patchModified pkg old new f.2)).map Prod.fst)
    ∧ runPatches "foo".toList "1.2.3".toList "1.2.4".toList
        [("/a/Cargo.toml".toList, "foo = \"1.2.3\"".toList),
          ("/b/Cargo.toml".toList, "bar = \"2.0.0\"".toList),
          ("/c/Cargo.toml".toList, "foo = \"1.2.3\"".toList)]
        = ["/a/Cargo.toml".toList, "/c/Cargo.toml".toList] := by
  refine ⟨?_, by decide⟩
  intro pkg old new files
  induction files with
  | nil => rfl
  | cons f rest ih =>
    obtain ⟨path, content⟩ := f
    rw [runPatches, List.filter_cons]
    by_cases h : patchModified pkg old new content = true
    · simp only [h, if_true, List.map_cons, ih]
    · rw [Bool.not_eq_true] at h
      simp only [h, if_false, Bool.false_eq_true, ih]

/-- Claim C9: patching with the new version equal to the old version never
modifies anything: the flag stays false and the file is untouched. -/
theorem patch_same_version_noop (pkg v content : List Char) :
    patchModified pkg v v content = false ∧ patchResult pkg v v content = content := by
  have hmod : patchModified pkg v v content = false :=
    patchModified_eq_false pkg v v content fun l _ => patchLine_same_ver pkg v l
  exact ⟨hmod, patchResult_of_not_modified pkg v v content hmod⟩

/-- Claim C10: a CRLF-terminated file is read with the carriage returns
stripped together with the newlines on every line (matching or not), so a
rewrite emits LF-only terminators: the output is the stripped lines, patched
and rejoined with `\n`, and contains no carriage return at all. -/
theorem crlf_not_preserved (pkg old new : List Char) (L : List (List Char))
    (hn : ∀ l ∈ L, '\n' ∉ l) (hr : ∀ l ∈ L, '\r' ∉ l) (hnew : '\r' ∉ new)
    (hmod : patchModified pkg old new (crlfJoin L) = true) :
    splitLines (crlfJoin L) = L
    ∧ patchResult pkg old new (crlfJoin L)
        = joinLines (L.map (patchLine pkg old new)) ++ ['\n']
    ∧ '\r' ∉ patchResult pkg old new (crlfJoin L) := by
  have hsplit : splitLines (crlfJoin L) = L := splitLines_crlf L hn
  have h2 : patchResult pkg old new (crlfJoin L)
      = joinLines (L.map (patchLine pkg old new)) ++ ['\n'] := by
    rw [patchResult_of_modified pkg old new _ hmod, hsplit]
  refine ⟨hsplit, h2, ?_⟩
  intro hmem
  rw [h2, List.mem_append] at hmem
  rcases hmem with hmem | hmem
  · rcases joinLines_mem _ _ hmem with hc | ⟨l, hl, hcl⟩
    · exact absurd hc (by decide)
    · rw [List.mem_map] at hl
      obtain ⟨l0, hl0, rfl⟩ := hl
      rw [patchLine] at hcl
      split at hcl
      · rcases strReplace_mem _ _ _ _ hcl with hc | hc
        · exact hr l0 hl0 hc
        · rcases quoteVer_mem _ _ hc with hc2 | hc2
          · exact absurd hc2 (by decide)
          · exact hnew hc2
      · exact hr l0 hl0 hcl
  · exact absurd (List.mem_singleton.mp hmem) (by decide)

/-- Witness for C10 on a two-line CRLF file. -/
theorem crlf_not_preserved_witness :
    splitLines (crlfJoin ["foo = \"1.2.3\"".toList, "# end".toList])
        = ["foo = \"1.2.3\"".toList, "# end".toList]
    ∧ patchResult "foo".toList "1.2.3".toList "1.2.4".toList
        (crlfJoin ["foo = \"1.2.3\"".toList, "# end".toList])
        = joinLines ((["foo = \"1.2.3\"".toList, "# end".toList]).map
            (patchLine "foo".toList "1.2.3".toList "1.2.4".toList)) ++ ['\n']
    ∧ '\r' ∉ patchResult "foo".toList "1.2.3".toList "1.2.4".toList
        (crlfJoin ["foo = \"1.2.3\"".toList, "# end".toList]) :=
  crlf_not_preserved _ _ _ _ (by decide) (by decide) (by decide) (by decide)

end CargoUpdateDep
